import Mathlib

/-!
Verification development for the knowledge-base (KB) and report-assembly
subsystem of the cybersecurity report generator (src/cyber/app3.py).

Modelling conventions:
* The SQLite table `knowledge_base` is modelled as a list of `KBEntry`
  records in storage (rowid) order; the UNIQUE constraint on `issue_name`
  is carried as an explicit `distinctNames` hypothesis where a claim
  needs it.  The timestamp columns `created_at` / `updated_at` are not
  observable through any operation the claims mention and are omitted.
* Python dictionaries keyed by strings are modelled as association lists
  built with `dictInsert`, which reproduces the insertion-order/overwrite
  semantics of `dict` assignment.
* `difflib.SequenceMatcher(None, a, b).ratio()` is an external standard
  library routine; no claim depends on its internals, so the search
  function is parameterised over an abstract similarity function
  `ratio : String -> String -> Rat`.
* Python floats are modelled as rationals; the weights 0.8, 0.15, 0.01,
  0.1 and 0.2 become 4/5, 3/20, 1/100, 1/10 and 1/5.
* Empty strings coincide with absent optional dict fields, exactly as in
  the source, which reads them with `dict.get(key, "")` and tests
  truthiness.
* JSON serialisation (`json.dumps` / `json.loads`) is the identity on
  the modelled object shape; a parse failure or a non-object payload is
  represented by the `ParsedJson.invalid` / `ParsedJson.nonObject`
  constructors.
-/

/-- One row of the `knowledge_base` SQLite table (timestamps omitted, see
module docstring). -/
structure KBEntry where
  issue_name : String
  implication : String
  mitigation : String
  usage_count : Nat
deriving DecidableEq, Repr

/-- The value part of the in-memory KB dictionary: implication and
mitigation text. -/
abbrev KBVal := String × String

/-- The UNIQUE constraint of the table: pairwise distinct issue names. -/
def distinctNames (store : List KBEntry) : Prop :=
  store.Pairwise (fun a b => a.issue_name ≠ b.issue_name)

instance : DecidablePred distinctNames := fun _ => by
  unfold distinctNames
  infer_instance

/-- Substring test on character lists: does `needle` occur contiguously
inside the second list?  Models the Python `in` operator on strings. -/
def charsContain (needle : List Char) : List Char → Bool
  | [] => needle.isEmpty
  | c :: rest => needle.isPrefixOf (c :: rest) || charsContain needle rest

/-- String-level substring test, `containsSub n h` models the Python
expression `n in h`. -/
def containsSub (needle hay : String) : Bool :=
  charsContain needle.toList hay.toList

/-- Recursive worker for `pySplit`: walks the characters, accumulating the
current token in reverse. -/
def pySplitAux : List Char → List Char → List String
  | [], acc => if acc.isEmpty then [] else [String.mk acc.reverse]
  | c :: rest, acc =>
    if c.isWhitespace then
      if acc.isEmpty then pySplitAux rest []
      else String.mk acc.reverse :: pySplitAux rest []
    else pySplitAux rest (c :: acc)

/-- The no-argument `str.split()` of Python: split on whitespace runs and
drop empty pieces. -/
def pySplit (s : String) : List String :=
  pySplitAux s.toList []

/-- The `str.lower()` of Python, modelled character-wise (the texts in
play are ASCII, where the two coincide). -/
def pyLower (s : String) : String :=
  String.mk (s.toList.map Char.toLower)

/-- Python dict assignment `d[k] = v` on an association list: overwrite in
place when the key is present (keeping its position, as dicts do), append
otherwise. -/
def dictInsert (kb : List (String × KBVal)) (k : String) (v : KBVal) :
    List (String × KBVal) :=
  if kb.any (fun p => p.1 == k) then
    kb.map (fun p => if p.1 == k then (k, v) else p)
  else
    kb ++ [(k, v)]

/-- Python dict access `d.get(k)` / membership `k in d` on an association
list: the value at the first (and, for a genuine dict, only) occurrence of
the key. -/
def kbLookup (kb : List (String × KBVal)) (n : String) : Option KBVal :=
  (kb.find? (fun p => p.1 == n)).map (fun p => p.2)

/-- Builds the Python dict `kb` of `load_kb_from_db` from a row list. -/
def kbOfRows (rows : List KBEntry) : List (String × KBVal) :=
  rows.foldl (fun kb e => dictInsert kb e.issue_name (e.implication, e.mitigation)) []

/-- Stable insertion step for sorting rows by descending usage count. -/
def insertByUsage (e : KBEntry) : List KBEntry → List KBEntry
  | [] => [e]
  | f :: rest =>
    if f.usage_count ≤ e.usage_count then e :: f :: rest
    else f :: insertByUsage e rest

/-- `ORDER BY usage_count DESC` of the `load_kb_from_db` query, realised
as a deterministic stable insertion sort. -/
def sortByUsageDesc : List KBEntry → List KBEntry
  | [] => []
  | e :: rest => insertByUsage e (sortByUsageDesc rest)

/-- `load_kb_from_db` (app3.py:105-120): select all rows ordered by
descending usage count and build the dict issue_name -> value pair. -/
def load_kb_from_db (store : List KBEntry) : List (String × KBVal) :=
  kbOfRows (sortByUsageDesc store)

/-- `add_to_kb_db` (app3.py:122-145): `INSERT ... ON CONFLICT(issue_name)
DO UPDATE SET implication, mitigation` — replace the text of an existing
row in place, or append a fresh row with usage count 0. -/
def add_to_kb_db (store : List KBEntry) (n i m : String) : List KBEntry :=
  if store.any (fun e => e.issue_name == n) then
    store.map (fun e =>
      if e.issue_name == n then
        { e with implication := i, mitigation := m }
      else e)
  else
    store ++ [⟨n, i, m, 0⟩]

/-- `increment_kb_usage` (app3.py:148-163): bump the usage counter of the
exact-match row unless this session already credited the name; the session
set models the `st.session_state` keys of the form `kb_used_{issue_name}`.
Returns the new store and the new session set. -/
def increment_kb_usage (store : List KBEntry) (session : List String)
    (issue_name : String) : List KBEntry × List String :=
  if session.contains issue_name then (store, session)
  else
    (store.map (fun e =>
        if e.issue_name == issue_name then
          { e with usage_count := e.usage_count + 1 }
        else e),
      issue_name :: session)

/-- The usage counter currently stored for a name (0 when absent). -/
def usageOf (store : List KBEntry) (n : String) : Nat :=
  ((store.find? (fun e => e.issue_name == n)).map (fun e => e.usage_count)).getD 0

/-- One result record of `search_kb_db`. -/
structure SearchMatch where
  issue : String
  implication : String
  mitigation : String
  score : ℚ
  usage_count : Nat
deriving DecidableEq, Repr

/-- Stable insertion step for sorting matches by descending score; models
the stable `list.sort(key=..., reverse=True)` of Python. -/
def insertByScore (m : SearchMatch) : List SearchMatch → List SearchMatch
  | [] => [m]
  | e :: rest =>
    if e.score ≤ m.score then m :: e :: rest
    else e :: insertByScore m rest

/-- Stable sort of matches by descending score. -/
def sortByScoreDesc : List SearchMatch → List SearchMatch
  | [] => []
  | m :: rest => insertByScore m (sortByScoreDesc rest)

/-- The per-candidate scoring body of `search_kb_db` (app3.py:179-207),
parameterised over the abstract similarity `ratio`. -/
def scoreCandidate (ratio : String → String → ℚ) (ql : String)
    (e : KBEntry) : Option SearchMatch :=
  let issue_similarity := ratio ql (pyLower e.issue_name)
  let impl_similarity := ratio ql (pyLower e.implication)
  let mitg_similarity := ratio ql (pyLower e.mitigation)
  let max_similarity :=
    max issue_similarity (max (impl_similarity * (4/5)) (mitg_similarity * (4/5)))
  let keywords := pySplit ql
  let keyword_matches :=
    (keywords.filter (fun k =>
      decide (k.length > 3) &&
      (containsSub k (pyLower e.issue_name) ||
       containsSub k (pyLower e.implication) ||
       containsSub k (pyLower e.mitigation)))).length
  let max_similarity :=
    if keyword_matches > 0 then
      max_similarity + (keyword_matches : ℚ) * (3/20)
    else max_similarity
  let usage_boost := min ((e.usage_count : ℚ) * (1/100)) (1/10)
  let max_similarity := max_similarity + usage_boost
  if max_similarity > 1/5 then
    some ⟨e.issue_name, e.implication, e.mitigation, max_similarity, e.usage_count⟩
  else none

/-- `search_kb_db` (app3.py:165-210): short query guard, per-row scoring,
threshold filter, stable descending sort, truncation to `top_n`. -/
def search_kb_db (ratio : String → String → ℚ) (store : List KBEntry)
    (query : String) (top_n : Nat) : List SearchMatch :=
  if query = "" ∨ query.length < 3 then []
  else
    let query_lower := pyLower query
    let results := store.filterMap (scoreCandidate ratio query_lower)
    (sortByScoreDesc results).take top_n

/-- A JSON value sitting under one key of an imported mapping: either an
object with string fields or any non-object JSON value. -/
inductive ImportVal
  | dict (fields : List (String × String))
  | other
deriving DecidableEq, Repr

/-- The outcome of `json.loads` on the import payload: unparseable input,
a JSON value with no `.items()` method, or a JSON object. -/
inductive ParsedJson
  | invalid
  | nonObject
  | object (entries : List (String × ImportVal))
deriving DecidableEq, Repr

/-- The body of the entry loop of `import_kb_from_json` (app3.py:234-241):
upsert a dict-shaped entry with non-empty implication and mitigation and
count the success, skip everything else. -/
def importStep (acc : List KBEntry × Nat) (p : String × ImportVal) :
    List KBEntry × Nat :=
  match p.2 with
  | ImportVal.dict fields =>
    let impl := (fields.lookup "implication").getD ""
    let mitg := (fields.lookup "mitigation").getD ""
    if impl ≠ "" ∧ mitg ≠ "" then
      (add_to_kb_db acc.1 p.1 impl mitg, acc.2 + 1)
    else acc
  | ImportVal.other => acc

/-- The entry loop of `import_kb_from_json` (app3.py:234-241). -/
def importEntries (store : List KBEntry)
    (entries : List (String × ImportVal)) : List KBEntry × Nat :=
  entries.foldl importStep (store, 0)

/-- `import_kb_from_json` (app3.py:229-244): a parse failure or an
object-less payload raises inside the `try`, is caught, and yields 0 with
no store change; an object payload runs the entry loop. -/
def import_kb_from_json (store : List KBEntry) :
    ParsedJson → List KBEntry × Nat
  | ParsedJson.invalid => (store, 0)
  | ParsedJson.nonObject => (store, 0)
  | ParsedJson.object entries => importEntries store entries

/-- `export_kb_to_json` (app3.py:223-226): serialise the loaded KB dict;
each value becomes the JSON object with the two text fields.  String
encoding and decoding round-trip, so the export is modelled directly in
parsed form. -/
def export_kb_to_json (store : List KBEntry) : List (String × ImportVal) :=
  (load_kb_from_db store).map
    (fun p => (p.1, ImportVal.dict [("implication", p.2.1), ("mitigation", p.2.2)]))

example : containsSub "bc" "abcd" = true := by decide
example : containsSub "bd" "abcd" = false := by decide
example : pySplit "a  bb " = ["a", "bb"] := by decide
example :
    add_to_kb_db [⟨"x", "i", "m", 2⟩] "x" "i2" "m2" = [⟨"x", "i2", "m2", 2⟩] := by
  decide
example :
    load_kb_from_db [⟨"a", "i", "m", 0⟩, ⟨"b", "j", "n", 3⟩] =
      [("b", ("j", "n")), ("a", ("i", "m"))] := by
  decide

/-- One finding record of the report session.  Dict fields read with a
default through `dict.get` are modelled as total string fields; an empty
string coincides with an absent value, as in the source. -/
structure Finding where
  number : String
  issue : String
  classification : String
  severity_level : String
  severity_status : String
  severity : String
  responsible_party : String
  implication : String
  mitigation : String
  affected_hosts : List String
deriving DecidableEq, Repr

/-- The observable content of one finding detail block produced by
`generate_finding_pages`: heading plus the variable cells of the 7-row
schema that the claims mention. -/
structure FindingPage where
  heading : String
  hosts_str : String
  implication : String
  risk_rating : String
  mitigation : String
deriving DecidableEq, Repr

/-- The placeholder used when no implication text is available. -/
def noImplication : String := "[No implication provided]"

/-- The placeholder used when no mitigation text is available. -/
def noMitigation : String := "[No mitigation provided]"

/-- The KB key chosen by the lookup block of `generate_finding_pages`
(app3.py:905-914): exact dict-key match first, else the first stored name
that is a case-insensitive substring of the issue text or vice versa, in
KB iteration order. -/
def kbMatchKey (kb : List (String × KBVal)) (issue : String) : Option String :=
  if (kbLookup kb issue).isSome then some issue
  else
    (kb.find? (fun p =>
      containsSub (pyLower p.1) (pyLower issue) ||
      containsSub (pyLower issue) (pyLower p.1))).map (fun p => p.1)

/-- The per-finding body of `generate_finding_pages` (app3.py:878-945):
resolve implication and mitigation, build the detail block, and report
which KB name received a usage-increment call (none when no lookup
happened or no match was found). -/
def renderFinding (kb : List (String × KBVal)) (f : Finding) :
    FindingPage × Option String :=
  let hosts_str :=
    if f.affected_hosts.isEmpty then "[No hosts specified]"
    else String.intercalate ", " f.affected_hosts
  let implication := f.implication
  let mitigation := f.mitigation
  let step :=
    if implication = "" ∨ mitigation = "" then
      match kbMatchKey kb f.issue with
      | some k =>
        (( if implication = "" then
             ((kbLookup kb k).map (fun v => v.1)).getD noImplication
           else implication),
         ( if mitigation = "" then
             ((kbLookup kb k).map (fun v => v.2)).getD noMitigation
           else mitigation),
         some k)
      | none => (implication, mitigation, (none : Option String))
    else (implication, mitigation, (none : Option String))
  let implication := if step.1 = "" then noImplication else step.1
  let mitigation := if step.2.1 = "" then noMitigation else step.2.1
  (⟨"Finding " ++ f.number ++ ": " ++ f.issue, hosts_str,
    implication, f.severity, mitigation⟩,
   step.2.2)

/-- Accumulated result of the finding-detail rendering loop: the emitted
pages, the usage-increment calls issued in order, and the final store and
session set. -/
structure RenderResult where
  pages : List FindingPage
  incCalls : List String
  store : List KBEntry
  session : List String
deriving Repr

/-- One iteration of the finding loop of `generate_finding_pages`: render
the finding against the loaded KB dict, record the emitted page, and when
a KB match was used, record and perform the usage-increment call. -/
def renderStep (kb : List (String × KBVal)) (acc : RenderResult)
    (f : Finding) : RenderResult :=
  let r := renderFinding kb f
  match r.2 with
  | some k =>
    let bumped := increment_kb_usage acc.store acc.session k
    ⟨acc.pages ++ [r.1], acc.incCalls ++ [k], bumped.1, bumped.2⟩
  | none => ⟨acc.pages ++ [r.1], acc.incCalls, acc.store, acc.session⟩

/-- `generate_finding_pages` (app3.py:874-979): load the KB dict once,
then render each finding in order, issuing a usage-increment call at each
successful KB match. -/
def generate_finding_pages (store : List KBEntry) (session : List String)
    (findings : List Finding) : RenderResult :=
  findings.foldl (renderStep (load_kb_from_db store)) ⟨[], [], store, session⟩

/-- One row of the findings master table, abstracted to its content. -/
inductive MasterRow
  | header
  | groupHeader (classification : String)
  | findingRow (number issue severity_level severity_status responsible : String)
deriving DecidableEq, Repr

/-- The fixed classification order of `add_findings_master_table`
(app3.py:801). -/
def masterClassifications : List String :=
  ["Mobile Application Vulnerability", "Server Vulnerabilities",
   "Web Vulnerabilities"]

/-- The row block appended for one classification when it has findings. -/
def classificationBlock (findings : List Finding) (c : String) : List MasterRow :=
  let classified := findings.filter (fun f => f.classification == c)
  if classified.isEmpty then []
  else
    MasterRow.groupHeader c ::
      classified.map (fun f =>
        MasterRow.findingRow f.number f.issue f.severity_level
          f.severity_status f.responsible_party)

/-- `add_findings_master_table` (app3.py:760-841): the table starts with
the header row; the loop then appends, for each classification in the
fixed order, a group header row and one row per finding of that
classification, skipping classifications with no findings. -/
def add_findings_master_table (findings : List Finding) : List MasterRow :=
  masterClassifications.foldl
    (fun rows c => rows ++ classificationBlock findings c)
    [MasterRow.header]

/-- The character class kept by the filename sanitiser of
`generate_report` (app3.py:1027): `[0-9a-zA-Z-_ ]`. -/
def allowedNameChar (c : Char) : Bool :=
  c.isDigit || c.isAlpha || c == '-' || c == '_' || c == ' '

/-- The `str.strip()` of Python on a character list: drop leading and
trailing whitespace. -/
def pyStripChars (cs : List Char) : List Char :=
  ((cs.dropWhile Char.isWhitespace).reverse.dropWhile Char.isWhitespace).reverse

/-- The filename computation of `generate_report` (app3.py:984,986,
1027-1028): keep only the allowed characters, strip, replace spaces by
underscores, then append the fixed version tag and extension. -/
def generate_report_filename (app_name : String) : String :=
  let version := "v1.0"
  let safe_name :=
    String.mk ((pyStripChars (app_name.toList.filter allowedNameChar)).map
      (fun c => if c == ' ' then '_' else c))
  safe_name ++ "_" ++ version ++ ".docx"

example : generate_report_filename "My App! 2024" = "My_App_2024_v1.0.docx" := by
  decide
example : generate_report_filename " a" = "a_v1.0.docx" := by decide

/-!
Specification-side definitions.  Each follows the wording of the claim it
is compared against, so that the refinement theorems below relate the
code translation to the claimed behaviour.
-/

/-- The number of whitespace-separated query tokens longer than three
characters that occur case-insensitively as a substring of the issue
name, the implication, or the mitigation. -/
def keywordTokenCount (query_lower : String) (e : KBEntry) : Nat :=
  ((pySplit query_lower).filter (fun k =>
    decide (k.length > 3) &&
    (containsSub k (pyLower e.issue_name) ||
     containsSub k (pyLower e.implication) ||
     containsSub k (pyLower e.mitigation)))).length

/-- The claimed score of a candidate: the maximum of the full-weight
issue-name similarity and the 20%-discounted body similarities, plus 0.15
per long matching token, plus the capped usage bonus. -/
def specScore (ratio : String → String → ℚ) (query : String)
    (e : KBEntry) : ℚ :=
  let ql := pyLower query
  max (ratio ql (pyLower e.issue_name))
      (max (ratio ql (pyLower e.implication) * (4/5))
           (ratio ql (pyLower e.mitigation) * (4/5)))
    + (keywordTokenCount ql e : ℚ) * (3/20)
    + min ((e.usage_count : ℚ) * (1/100)) (1/10)

/-- A candidate entry rendered as a search result with its claimed
score. -/
def specMatchOf (ratio : String → String → ℚ) (query : String)
    (e : KBEntry) : SearchMatch :=
  ⟨e.issue_name, e.implication, e.mitigation, specScore ratio query e,
   e.usage_count⟩

/-- The claimed finding-detail text resolution order: explicit value
first, then the matched KB value when non-empty, then the placeholder. -/
def specResolveField (explicit : String) (kbVal : Option String)
    (placeholder : String) : String :=
  if explicit ≠ "" then explicit
  else
    match kbVal with
    | some v => if v ≠ "" then v else placeholder
    | none => placeholder

/-- The finding detail block as the claim describes it: each text field
resolved through `specResolveField` with the KB key chosen by exact match
first and case-insensitive substring match second. -/
def specPage (kb : List (String × KBVal)) (f : Finding) : FindingPage :=
  { heading := "Finding " ++ f.number ++ ": " ++ f.issue
    hosts_str :=
      if f.affected_hosts.isEmpty then "[No hosts specified]"
      else String.intercalate ", " f.affected_hosts
    implication :=
      specResolveField f.implication
        ((kbMatchKey kb f.issue).bind (fun k => (kbLookup kb k).map (fun v => v.1)))
        noImplication
    risk_rating := f.severity
    mitigation :=
      specResolveField f.mitigation
        ((kbMatchKey kb f.issue).bind (fun k => (kbLookup kb k).map (fun v => v.2)))
        noMitigation }

/-- An import entry that the claim says must be upserted: a dict value
with non-empty implication and mitigation, yielding the upsert
arguments. -/
def goodEntry : String × ImportVal → Option (String × String × String)
  | (n, ImportVal.dict fields) =>
    let impl := (fields.lookup "implication").getD ""
    let mitg := (fields.lookup "mitigation").getD ""
    if impl ≠ "" ∧ mitg ≠ "" then some (n, impl, mitg) else none
  | (_, ImportVal.other) => none

/-- The filename base exactly as claim C9 words it: characters outside
the allowed class removed and every space replaced by an underscore, with
no stripping step. -/
def claimedFilename (app_name : String) : String :=
  let base :=
    String.mk ((app_name.toList.filter allowedNameChar).map
      (fun c => if c == ' ' then '_' else c))
  base ++ "_" ++ "v1.0" ++ ".docx"

/-- The filename base as amended: characters outside the allowed class
removed, then leading and trailing spaces stripped, then every space
replaced by an underscore. -/
def amendedFilename (app_name : String) : String :=
  let kept := app_name.toList.filter allowedNameChar
  let stripped :=
    ((kept.dropWhile (fun c => c == ' ')).reverse.dropWhile
      (fun c => c == ' ')).reverse
  String.mk (stripped.map (fun c => if c == ' ' then '_' else c))
    ++ "_" ++ "v1.0" ++ ".docx"

/-!
Helper lemmas.
-/

/-- dropWhile only inspects elements of the list, so predicates that
agree on them give the same result. -/
theorem dropWhile_congr {α : Type} {p q : α → Bool} :
    ∀ l : List α, (∀ c ∈ l, p c = q c) → l.dropWhile p = l.dropWhile q := by
  intro l
  induction l with
  | nil => intro _; rfl
  | cons c t ih =>
    intro h
    simp only [List.dropWhile_cons]
    rw [h c (List.mem_cons_self c t)]
    by_cases hq : q c = true
    · simp only [hq, if_true]
      exact ih (fun x hx => h x (List.mem_cons_of_mem c hx))
    · simp [eq_false_of_ne_true hq]

/-- On characters of the allowed filename class, whitespace means
exactly the space character. -/
theorem allowed_whitespace_is_space (c : Char)
    (h : allowedNameChar c = true) : c.isWhitespace = (c == ' ') := by
  by_cases hsp : c = ' '
  · subst hsp; decide
  · have hns : (c == ' ') = false := by
      simp only [beq_eq_false_iff_ne, ne_eq]; exact hsp
    rw [hns]
    cases hw : c.isWhitespace
    · rfl
    · exfalso
      have hcases : ((c = ' ' ∨ c = '\t') ∨ c = '\r') ∨ c = '\n' := by
        simpa [Char.isWhitespace] using hw
      rcases hcases with ((h1 | h1) | h1) | h1
      · exact hsp h1
      all_goals simp [h1, allowedNameChar] at h

/-- Left fold that appends blocks equals the flat map of the blocks. -/
theorem foldl_append_blocks {α β : Type} (g : α → List β) :
    ∀ (l : List α) (init : List β),
      l.foldl (fun rows c => rows ++ g c) init = init ++ l.flatMap g := by
  intro l
  induction l with
  | nil => intro init; simp
  | cons c t ih => intro init; simp [ih, List.append_assoc]

/-- The entry loop of the import accumulates exactly the good entries and
counts them. -/
theorem importEntries_spec :
    ∀ (entries : List (String × ImportVal)) (store : List KBEntry) (c : Nat),
      entries.foldl importStep (store, c) =
        ((entries.filterMap goodEntry).foldl
          (fun s t => add_to_kb_db s t.1 t.2.1 t.2.2) store,
         c + (entries.filterMap goodEntry).length) := by
  intro entries
  induction entries with
  | nil => intro store c; simp
  | cons p rest ih =>
    intro store c
    obtain ⟨n, v⟩ := p
    cases v with
    | dict fields =>
      by_cases hcond :
          (fields.lookup "implication").getD "" ≠ "" ∧
          (fields.lookup "mitigation").getD "" ≠ ""
      · have hg : goodEntry (n, ImportVal.dict fields) =
            some (n, (fields.lookup "implication").getD "",
              (fields.lookup "mitigation").getD "") := by
          simp only [goodEntry]
          rw [if_pos hcond]
        have hs : importStep (store, c) (n, ImportVal.dict fields) =
            (add_to_kb_db store n ((fields.lookup "implication").getD "")
              ((fields.lookup "mitigation").getD ""), c + 1) := by
          simp only [importStep]
          rw [if_pos hcond]
        have hfm : List.filterMap goodEntry ((n, ImportVal.dict fields) :: rest) =
            (n, (fields.lookup "implication").getD "",
              (fields.lookup "mitigation").getD "") ::
              List.filterMap goodEntry rest := by
          rw [List.filterMap_cons, hg]
        rw [List.foldl_cons, hs, ih, hfm]
        simp only [List.foldl_cons, List.length_cons, Prod.mk.injEq]
        exact ⟨trivial, by omega⟩
      · have hg : goodEntry (n, ImportVal.dict fields) = none := by
          simp only [goodEntry]
          rw [if_neg hcond]
        have hs : importStep (store, c) (n, ImportVal.dict fields) = (store, c) := by
          simp only [importStep]
          rw [if_neg hcond]
        have hfm : List.filterMap goodEntry ((n, ImportVal.dict fields) :: rest) =
            List.filterMap goodEntry rest := by
          rw [List.filterMap_cons, hg]
        rw [List.foldl_cons, hs, hfm]
        exact ih store c
    | other =>
      simp only [List.foldl_cons, importStep, goodEntry, List.filterMap_cons]
      exact ih store c

/-- A group header appears in the block of classification `a` exactly
when `a` matches and has findings. -/
theorem mem_groupHeader_block (findings : List Finding) (c a : String) :
    MasterRow.groupHeader c ∈ classificationBlock findings a ↔
      a = c ∧ findings.filter (fun f => f.classification == a) ≠ [] := by
  simp only [classificationBlock]
  by_cases h : (findings.filter (fun f => f.classification == a)).isEmpty = true
  · rw [if_pos h]
    simp only [List.not_mem_nil, false_iff, not_and]
    intro _
    simpa [List.isEmpty_iff] using h
  · rw [if_neg h]
    have hne : findings.filter (fun f => f.classification == a) ≠ [] := by
      simpa [List.isEmpty_iff] using h
    constructor
    · intro hmem
      rcases List.mem_cons.mp hmem with hhead | htail
      · exact ⟨((MasterRow.groupHeader.injEq c a).mp hhead).symm, hne⟩
      · exfalso
        rcases List.mem_map.mp htail with ⟨f, _, hf⟩
        simp at hf
    · rintro ⟨rfl, _⟩
      exact List.mem_cons_self _ _

/-!
Claim theorems.
-/

/-- C4: for every store state, abstract similarity function and result
cap, `search_kb_db` returns the empty sequence whenever the query is
empty or has fewer than 3 characters. -/
theorem search_short_query_returns_empty (ratio : String → String → ℚ)
    (store : List KBEntry) (query : String) (top_n : Nat)
    (h : query = "" ∨ query.length < 3) :
    search_kb_db ratio store query top_n = [] := by
  unfold search_kb_db
  rw [if_pos h]

/-- Witness for C4: both spec examples, the empty query and the length-2
query "ab", yield the empty result on a non-empty store. -/
theorem search_short_query_returns_empty_witness :
    (("" : String) = "" ∨ ("" : String).length < 3) ∧
    (("ab" : String) = "" ∨ ("ab" : String).length < 3) ∧
    search_kb_db (fun _ _ => 1) [⟨"SQL Injection", "i", "m", 0⟩] "" 5 = [] ∧
    search_kb_db (fun _ _ => 1) [⟨"SQL Injection", "i", "m", 0⟩] "ab" 5 = [] :=
  ⟨Or.inl rfl, Or.inr (by decide),
   search_short_query_returns_empty _ _ _ _ (Or.inl rfl),
   search_short_query_returns_empty _ _ _ _ (Or.inr (by decide))⟩

/-- C10: when the serialized import payload is not parseable as JSON, or
iterating its entries raises because the payload is not an object,
`import_kb_from_json` returns 0 and leaves the store unchanged instead of
propagating the exception. -/
theorem import_parse_failure_returns_zero (store : List KBEntry) :
    import_kb_from_json store ParsedJson.invalid = (store, 0) ∧
    import_kb_from_json store ParsedJson.nonObject = (store, 0) :=
  ⟨rfl, rfl⟩

/-- C7: `import_kb_from_json` on an object payload upserts exactly the
entries whose value is a dict with non-empty implication and mitigation,
in order, skips every malformed entry without aborting the rest, and
returns the count of upserted entries. -/
theorem import_object_upserts_good_entries (store : List KBEntry)
    (entries : List (String × ImportVal)) :
    import_kb_from_json store (ParsedJson.object entries) =
      ((entries.filterMap goodEntry).foldl
        (fun s t => add_to_kb_db s t.1 t.2.1 t.2.2) store,
       (entries.filterMap goodEntry).length) := by
  show importEntries store entries = _
  unfold importEntries
  simpa using importEntries_spec entries store 0

/-- C8: the findings master table is the header row followed by the
classification groups in the fixed order Mobile, Server, Web; a
classification with zero findings contributes no rows at all, and a group
header appears exactly for the classifications that have findings. -/
theorem master_table_groups_fixed_order (findings : List Finding) :
    add_findings_master_table findings =
      MasterRow.header ::
        masterClassifications.flatMap (classificationBlock findings) ∧
    ∀ c, MasterRow.groupHeader c ∈ add_findings_master_table findings ↔
      c ∈ masterClassifications ∧
        findings.filter (fun f => f.classification == c) ≠ [] := by
  have heq : add_findings_master_table findings =
      MasterRow.header ::
        masterClassifications.flatMap (classificationBlock findings) := by
    unfold add_findings_master_table
    rw [foldl_append_blocks]
    rfl
  refine ⟨heq, fun c => ?_⟩
  rw [heq]
  simp only [List.mem_cons, List.mem_flatMap]
  constructor
  · rintro (hhd | ⟨a, ha, hblk⟩)
    · exact absurd hhd (by simp)
    · rcases (mem_groupHeader_block findings c a).mp hblk with ⟨rfl, hne⟩
      exact ⟨ha, hne⟩
  · rintro ⟨hc, hne⟩
    exact Or.inr ⟨c, hc, (mem_groupHeader_block findings c c).mpr ⟨rfl, hne⟩⟩

/-- C9 counterexample: for the application name consisting of a space
followed by the letter a, the code strips the leading space before
replacing spaces, so the produced filename differs from the one the claim
describes (which would keep the space as an underscore). -/
theorem filename_claim_counterexample :
    generate_report_filename " a" = "a_v1.0.docx" ∧
    claimedFilename " a" = "_a_v1.0.docx" ∧
    generate_report_filename " a" ≠ claimedFilename " a" :=
  ⟨by decide, by decide, by decide⟩

/-- C9 amended: the output filename is the application name with every
character outside the class kept by the sanitiser removed, then leading
and trailing spaces stripped, then every space replaced by an underscore,
suffixed by the fixed version tag and extension; the name
"My App! 2024" yields the base "My_App_2024". -/
theorem filename_amended (app_name : String) :
    generate_report_filename app_name = amendedFilename app_name ∧
    generate_report_filename "My App! 2024" = "My_App_2024_v1.0.docx" := by
  constructor
  · unfold generate_report_filename amendedFilename pyStripChars
    have hmem : ∀ c ∈ app_name.toList.filter allowedNameChar,
        Char.isWhitespace c = (c == ' ') := by
      intro c hc
      exact allowed_whitespace_is_space c (List.mem_filter.mp hc).2
    rw [dropWhile_congr _ hmem]
    have hmem2 : ∀ c ∈ ((app_name.toList.filter allowedNameChar).dropWhile
        (fun c => c == ' ')).reverse, Char.isWhitespace c = (c == ' ') := by
      intro c hc
      refine hmem c ?_
      exact (List.dropWhile_sublist _).subset (List.mem_reverse.mp hc)
    rw [dropWhile_congr _ hmem2]
  · decide

/-- The candidate scoring of the code equals the claimed score formula:
the conditional keyword bonus of the code coincides with the
unconditional per-token sum of the claim. -/
theorem scoreCandidate_eq (ratio : String → String → ℚ) (query : String)
    (e : KBEntry) :
    scoreCandidate ratio (pyLower query) e =
      if (specMatchOf ratio query e).score > 1/5
      then some (specMatchOf ratio query e) else none := by
  by_cases hk : 0 < keywordTokenCount (pyLower query) e
  · have hk2 := hk
    simp only [keywordTokenCount] at hk2
    simp only [scoreCandidate, specMatchOf, specScore, keywordTokenCount]
    rw [if_pos hk2]
  · have hz : keywordTokenCount (pyLower query) e = 0 := by omega
    have hz2 := hz
    simp only [keywordTokenCount] at hz2
    simp only [scoreCandidate, specMatchOf, specScore, keywordTokenCount]
    rw [if_neg (by omega : ¬ 0 < ((pySplit (pyLower query)).filter (fun k =>
      decide (k.length > 3) &&
      (containsSub k (pyLower e.issue_name) ||
       containsSub k (pyLower e.implication) ||
       containsSub k (pyLower e.mitigation)))).length)]
    rw [hz2]
    norm_num

/-- Scoring and filtering the store row by row is mapping the claimed
score over the store and keeping the entries above the threshold. -/
theorem filterMap_scoreCandidate (ratio : String → String → ℚ)
    (query : String) (store : List KBEntry) :
    store.filterMap (scoreCandidate ratio (pyLower query)) =
      (store.map (specMatchOf ratio query)).filter
        (fun m => decide (m.score > 1/5)) := by
  induction store with
  | nil => rfl
  | cons e t ih =>
    rw [List.filterMap_cons, scoreCandidate_eq]
    by_cases h : (specMatchOf ratio query e).score > 1/5
    · rw [if_pos h, List.map_cons, List.filter_cons, if_pos (by simpa using h),
        ih]
    · rw [if_neg h, List.map_cons, List.filter_cons, if_neg (by simpa using h),
        ih]

/-- C3: for a non-trivial query, `search_kb_db` returns exactly the
stored candidates whose claimed score — the maximum of the full-weight
issue-name similarity and the 20%-discounted body similarities, plus 0.15
per long matching token, plus the capped usage bonus — exceeds 0.2,
ordered by descending score and truncated to at most `top_n` entries. -/
theorem search_scoring_spec (ratio : String → String → ℚ)
    (store : List KBEntry) (query : String) (top_n : Nat)
    (h : ¬(query = "" ∨ query.length < 3)) :
    search_kb_db ratio store query top_n =
      (sortByScoreDesc ((store.map (specMatchOf ratio query)).filter
        (fun m => decide (m.score > 1/5)))).take top_n := by
  unfold search_kb_db
  rw [if_neg h]
  show (sortByScoreDesc
      (store.filterMap (scoreCandidate ratio (pyLower query)))).take top_n = _
  rw [filterMap_scoreCandidate]

/-- Witness for C3: a concrete store, query and similarity function on
which both sides of the scoring theorem evaluate. -/
theorem search_scoring_spec_witness :
    ¬(("alpha" : String) = "" ∨ ("alpha" : String).length < 3) ∧
    search_kb_db (fun _ _ => 1) [⟨"alpha", "beta", "gamma", 0⟩] "alpha" 5 =
      (sortByScoreDesc (([(⟨"alpha", "beta", "gamma", 0⟩ : KBEntry)].map
        (specMatchOf (fun _ _ => 1) "alpha")).filter
          (fun m => decide (m.score > 1/5)))).take 5 :=
  ⟨by decide, search_scoring_spec _ _ _ _ (by decide)⟩

/-- Finding the first row with a given name commutes with mapping a
name-preserving function over the store. -/
theorem find?_map_name_preserving (f : KBEntry → KBEntry)
    (hf : ∀ e, (f e).issue_name = e.issue_name) (n : String) :
    ∀ s : List KBEntry,
      (s.map f).find? (fun e => e.issue_name == n) =
        (s.find? (fun e => e.issue_name == n)).map f := by
  intro s
  induction s with
  | nil => rfl
  | cons e t ih =>
    rw [List.map_cons]
    by_cases h : (e.issue_name == n) = true
    · rw [@List.find?_cons_of_pos KBEntry (fun x => x.issue_name == n) (f e)
          (t.map f) (by show ((f e).issue_name == n) = true; rw [hf]; exact h),
        @List.find?_cons_of_pos KBEntry (fun x => x.issue_name == n) e t h]
      rfl
    · rw [@List.find?_cons_of_neg KBEntry (fun x => x.issue_name == n) (f e)
          (t.map f) (by show ¬((f e).issue_name == n) = true; rw [hf]; exact h),
        @List.find?_cons_of_neg KBEntry (fun x => x.issue_name == n) e t h]
      exact ih

/-- Bumping the usage counter of a present name raises its stored usage
by exactly one. -/
theorem usageOf_bump_present (s : List KBEntry) (n : String)
    (hmem : ∃ e ∈ s, e.issue_name = n) :
    usageOf (s.map (fun e =>
      if e.issue_name == n then { e with usage_count := e.usage_count + 1 }
      else e)) n = usageOf s n + 1 := by
  have hf : ∀ e : KBEntry,
      ((fun e => if e.issue_name == n then
          { e with usage_count := e.usage_count + 1 } else e) e).issue_name =
        e.issue_name := by
    intro e
    by_cases h : (e.issue_name == n) = true <;> simp [h]
  unfold usageOf
  rw [find?_map_name_preserving _ hf]
  cases hq : s.find? (fun e => e.issue_name == n) with
  | none =>
    exfalso
    obtain ⟨e, he, hn⟩ := hmem
    have := List.find?_eq_none.mp hq e he
    simp [hn] at this
  | some e0 =>
    have hp : e0.issue_name = n := by simpa using List.find?_some hq
    simp [hp]

/-- Bumping a usage counter never lowers any stored usage. -/
theorem usageOf_bump_ge (s : List KBEntry) (m n : String) :
    usageOf (s.map (fun e =>
      if e.issue_name == m then { e with usage_count := e.usage_count + 1 }
      else e)) n ≥ usageOf s n := by
  have hf : ∀ e : KBEntry,
      ((fun e => if e.issue_name == m then
          { e with usage_count := e.usage_count + 1 } else e) e).issue_name =
        e.issue_name := by
    intro e
    by_cases h : (e.issue_name == m) = true <;> simp [h]
  unfold usageOf
  rw [find?_map_name_preserving _ hf]
  cases hq : s.find? (fun e => e.issue_name == n) with
  | none => simp
  | some e0 =>
    by_cases h : e0.issue_name = m <;> simp [h]

/-- An upsert never lowers any stored usage counter: on conflict it
rewrites only the text fields, otherwise it appends a fresh row. -/
theorem usageOf_add_ge (s : List KBEntry) (a b c n : String) :
    usageOf (add_to_kb_db s a b c) n ≥ usageOf s n := by
  unfold add_to_kb_db
  by_cases hany : s.any (fun e => e.issue_name == a) = true
  · rw [if_pos hany]
    have hf : ∀ e : KBEntry,
        ((fun e => if e.issue_name == a then
            { e with implication := b, mitigation := c } else e) e).issue_name =
          e.issue_name := by
      intro e
      by_cases h : (e.issue_name == a) = true <;> simp [h]
    unfold usageOf
    rw [find?_map_name_preserving _ hf]
    cases hq : s.find? (fun e => e.issue_name == n) with
    | none => simp
    | some e0 => by_cases h : e0.issue_name = a <;> simp [h]
  · rw [if_neg hany]
    unfold usageOf
    rw [List.find?_append]
    cases hq : s.find? (fun e => e.issue_name == n) with
    | none => simp
    | some e0 => simp

/-- The import loop never lowers any stored usage counter. -/
theorem usageOf_foldl_importStep_ge :
    ∀ (entries : List (String × ImportVal)) (s : List KBEntry) (c : Nat)
      (n : String),
      usageOf (entries.foldl importStep (s, c)).1 n ≥ usageOf s n := by
  intro entries
  induction entries with
  | nil => intro s c n; exact le_refl _
  | cons p rest ih =>
    intro s c n
    rw [List.foldl_cons]
    have hstep : usageOf (importStep (s, c) p).1 n ≥ usageOf s n := by
      obtain ⟨nm, v⟩ := p
      cases v with
      | dict fields =>
        by_cases hcond : (fields.lookup "implication").getD "" ≠ "" ∧
            (fields.lookup "mitigation").getD "" ≠ ""
        · simp only [importStep]
          rw [if_pos hcond]
          exact usageOf_add_ge s nm _ _ n
        · simp only [importStep]
          rw [if_neg hcond]
      | other => exact le_refl _
    exact le_trans hstep (ih (importStep (s, c) p).1 (importStep (s, c) p).2 n)

/-- C5: for an issue name present in the store, two usage increments in
the same session bump the counter by exactly 1 (the second call is
suppressed by the session set), one increment in each of two distinct
sessions bumps it by exactly 2, and no KB operation — increment, upsert,
or import — ever lowers a usage counter. -/
theorem increment_usage_dedup (store : List KBEntry)
    (session1 session2 : List String) (n : String)
    (hmem : ∃ e ∈ store, e.issue_name = n)
    (h1 : n ∉ session1) (h2 : n ∉ session2) :
    usageOf (increment_kb_usage
        (increment_kb_usage store session1 n).1
        (increment_kb_usage store session1 n).2 n).1 n
      = usageOf store n + 1 ∧
    usageOf (increment_kb_usage
        (increment_kb_usage store session1 n).1 session2 n).1 n
      = usageOf store n + 2 ∧
    (∀ (s : List KBEntry) (sess : List String) (m k : String),
      usageOf (increment_kb_usage s sess m).1 k ≥ usageOf s k) ∧
    (∀ (s : List KBEntry) (a b c k : String),
      usageOf (add_to_kb_db s a b c) k ≥ usageOf s k) ∧
    (∀ (s : List KBEntry) (pj : ParsedJson) (k : String),
      usageOf (import_kb_from_json s pj).1 k ≥ usageOf s k) := by
  have e1 : increment_kb_usage store session1 n =
      (store.map (fun e =>
        if e.issue_name == n then { e with usage_count := e.usage_count + 1 }
        else e), n :: session1) := by
    unfold increment_kb_usage
    rw [if_neg (by simpa using h1)]
  refine ⟨?_, ?_, ?_, ?_, ?_⟩
  · rw [e1]
    have e2 : increment_kb_usage (store.map (fun e =>
        if e.issue_name == n then { e with usage_count := e.usage_count + 1 }
        else e)) (n :: session1) n =
        (store.map (fun e =>
          if e.issue_name == n then { e with usage_count := e.usage_count + 1 }
          else e), n :: session1) := by
      unfold increment_kb_usage
      rw [if_pos (by simp)]
    rw [e2]
    exact usageOf_bump_present store n hmem
  · rw [e1]
    have hm2 : ∃ e ∈ store.map (fun e =>
        if e.issue_name == n then { e with usage_count := e.usage_count + 1 }
        else e), e.issue_name = n := by
      obtain ⟨e, he, hn⟩ := hmem
      refine ⟨_, List.mem_map_of_mem _ he, ?_⟩
      by_cases h : e.issue_name = n <;> simp [h, hn]
    have e3 : increment_kb_usage (store.map (fun e =>
        if e.issue_name == n then { e with usage_count := e.usage_count + 1 }
        else e)) session2 n =
        ((store.map (fun e =>
          if e.issue_name == n then { e with usage_count := e.usage_count + 1 }
          else e)).map (fun e =>
          if e.issue_name == n then { e with usage_count := e.usage_count + 1 }
          else e), n :: session2) := by
      unfold increment_kb_usage
      rw [if_neg (by simpa using h2)]
    rw [e3]
    show usageOf _ n = usageOf store n + 2
    rw [usageOf_bump_present _ n hm2, usageOf_bump_present store n hmem]
  · intro s sess m k
    unfold increment_kb_usage
    by_cases hic : (sess.contains m) = true
    · rw [if_pos hic]
    · rw [if_neg hic]
      exact usageOf_bump_ge s m k
  · intro s a b c k
    exact usageOf_add_ge s a b c k
  · intro s pj k
    cases pj with
    | invalid => exact le_refl _
    | nonObject => exact le_refl _
    | object entries =>
      show usageOf (importEntries s entries).1 k ≥ usageOf s k
      unfold importEntries
      exact usageOf_foldl_importStep_ge entries s 0 k

/-- Witness for C5: a concrete one-entry store and empty sessions on
which the double-increment bump of exactly one evaluates. -/
theorem increment_usage_dedup_witness :
    (∃ e ∈ [(⟨"x", "i", "m", 0⟩ : KBEntry)], e.issue_name = "x") ∧
    ("x" ∉ ([] : List String)) ∧
    usageOf (increment_kb_usage
        (increment_kb_usage [⟨"x", "i", "m", 0⟩] [] "x").1
        (increment_kb_usage [⟨"x", "i", "m", 0⟩] [] "x").2 "x").1 "x"
      = usageOf [⟨"x", "i", "m", 0⟩] "x" + 1 :=
  ⟨by decide, by decide,
   (increment_usage_dedup [⟨"x", "i", "m", 0⟩] [] [] "x"
     (by decide) (by decide) (by decide)).1⟩

/-- Stable usage-count insertion is a permutation of consing. -/
theorem perm_insertByUsage (e : KBEntry) :
    ∀ l : List KBEntry, (insertByUsage e l).Perm (e :: l) := by
  intro l
  induction l with
  | nil => exact List.Perm.refl _
  | cons f rest ih =>
    show (if f.usage_count ≤ e.usage_count then e :: f :: rest
      else f :: insertByUsage e rest).Perm (e :: f :: rest)
    by_cases h : f.usage_count ≤ e.usage_count
    · rw [if_pos h]
    · rw [if_neg h]
      exact (ih.cons f).trans (List.Perm.swap e f rest)

/-- The usage-count sort is a permutation of its input. -/
theorem perm_sortByUsageDesc :
    ∀ l : List KBEntry, (sortByUsageDesc l).Perm l := by
  intro l
  induction l with
  | nil => exact List.Perm.refl _
  | cons e rest ih =>
    show (insertByUsage e (sortByUsageDesc rest)).Perm (e :: rest)
    exact (perm_insertByUsage e _).trans (ih.cons e)

/-- Dict assignment preserves pairwise-distinct keys. -/
theorem dictInsert_pairwise (kb : List (String × KBVal)) (k : String)
    (v : KBVal) (h : kb.Pairwise (fun a b => a.1 ≠ b.1)) :
    (dictInsert kb k v).Pairwise (fun a b => a.1 ≠ b.1) := by
  unfold dictInsert
  by_cases hany : kb.any (fun p => p.1 == k) = true
  · rw [if_pos hany]
    have hf : ∀ p : String × KBVal,
        ((fun p => if p.1 == k then (k, v) else p) p).1 = p.1 := by
      intro p
      by_cases hp : (p.1 == k) = true
      · simp [hp, eq_of_beq hp]
      · simp [hp]
    rw [List.pairwise_map]
    exact h.imp (fun hab => by rw [hf, hf]; exact hab)
  · rw [if_neg hany]
    rw [List.pairwise_append]
    refine ⟨h, List.pairwise_singleton _ _, ?_⟩
    intro a ha b hb hEq
    apply hany
    rw [List.any_eq_true]
    refine ⟨a, ha, ?_⟩
    rw [List.mem_singleton.mp hb] at hEq
    simp [hEq]

/-- Building the dict from rows always yields pairwise-distinct keys. -/
theorem foldl_dictStep_pairwise :
    ∀ (rows : List KBEntry) (acc : List (String × KBVal)),
      acc.Pairwise (fun a b => a.1 ≠ b.1) →
      (rows.foldl (fun kb e =>
        dictInsert kb e.issue_name (e.implication, e.mitigation)) acc).Pairwise
        (fun a b => a.1 ≠ b.1) := by
  intro rows
  induction rows with
  | nil => intro acc h; exact h
  | cons e t ih =>
    intro acc h
    rw [List.foldl_cons]
    exact ih _ (dictInsert_pairwise _ _ _ h)

/-- The loaded KB dict always has pairwise-distinct keys. -/
theorem load_kb_pairwise (store : List KBEntry) :
    (load_kb_from_db store).Pairwise (fun a b => a.1 ≠ b.1) :=
  foldl_dictStep_pairwise _ [] List.Pairwise.nil

/-- Every dict entry built from rows carries the text of some row (or of
the initial accumulator). -/
theorem mem_foldl_dictStep :
    ∀ (rows : List KBEntry) (acc : List (String × KBVal)) (p : String × KBVal),
      p ∈ rows.foldl (fun kb e =>
        dictInsert kb e.issue_name (e.implication, e.mitigation)) acc →
      (∃ e ∈ rows, p = (e.issue_name, (e.implication, e.mitigation))) ∨ p ∈ acc := by
  intro rows
  induction rows with
  | nil => intro acc p hp; exact Or.inr hp
  | cons e t ih =>
    intro acc p hp
    rw [List.foldl_cons] at hp
    rcases ih _ p hp with ⟨e2, he2, heq⟩ | hacc
    · exact Or.inl ⟨e2, List.mem_cons_of_mem _ he2, heq⟩
    · unfold dictInsert at hacc
      by_cases hany : acc.any (fun q => q.1 == e.issue_name) = true
      · rw [if_pos hany] at hacc
        rcases List.mem_map.mp hacc with ⟨q, hq, hqe⟩
        by_cases hqk : (q.1 == e.issue_name) = true
        · rw [if_pos hqk] at hqe
          exact Or.inl ⟨e, List.mem_cons_self _ _, hqe.symm⟩
        · rw [if_neg hqk] at hqe
          exact Or.inr (hqe ▸ hq)
      · rw [if_neg hany] at hacc
        rcases List.mem_append.mp hacc with h1 | h1
        · exact Or.inr h1
        · exact Or.inl ⟨e, List.mem_cons_self _ _, List.mem_singleton.mp h1⟩

/-- After a dict assignment the assigned key is present. -/
theorem key_mem_dictInsert (acc : List (String × KBVal)) (k : String)
    (v : KBVal) : ∃ p ∈ dictInsert acc k v, p.1 = k := by
  unfold dictInsert
  by_cases hany : acc.any (fun q => q.1 == k) = true
  · rw [if_pos hany]
    rcases List.any_eq_true.mp hany with ⟨q, hq, hqk⟩
    exact ⟨(k, v), List.mem_map.mpr ⟨q, hq, by rw [if_pos hqk]⟩, rfl⟩
  · rw [if_neg hany]
    exact ⟨(k, v), List.mem_append.mpr (Or.inr (List.mem_singleton.mpr rfl)), rfl⟩

/-- Dict assignment keeps every key that was already present. -/
theorem key_mem_dictInsert_mono (acc : List (String × KBVal)) (k : String)
    (v : KBVal) (k0 : String) (h : ∃ p ∈ acc, p.1 = k0) :
    ∃ p ∈ dictInsert acc k v, p.1 = k0 := by
  obtain ⟨p, hp, hpk⟩ := h
  unfold dictInsert
  by_cases hany : acc.any (fun q => q.1 == k) = true
  · rw [if_pos hany]
    by_cases hpe : (p.1 == k) = true
    · exact ⟨(k, v), List.mem_map.mpr ⟨p, hp, by rw [if_pos hpe]⟩,
        (eq_of_beq hpe).symm.trans hpk⟩
    · exact ⟨p, List.mem_map.mpr ⟨p, hp, by rw [if_neg hpe]⟩, hpk⟩
  · rw [if_neg hany]
    exact ⟨p, List.mem_append.mpr (Or.inl hp), hpk⟩

/-- Every row name ends up as a key of the built dict. -/
theorem key_mem_foldl :
    ∀ (rows : List KBEntry) (acc : List (String × KBVal)) (k0 : String),
      ((∃ p ∈ acc, p.1 = k0) ∨ (∃ e ∈ rows, e.issue_name = k0)) →
      ∃ p ∈ rows.foldl (fun kb e =>
        dictInsert kb e.issue_name (e.implication, e.mitigation)) acc,
        p.1 = k0 := by
  intro rows
  induction rows with
  | nil =>
    intro acc k0 h
    rcases h with h | ⟨e, he, _⟩
    · exact h
    · exact absurd he (List.not_mem_nil e)
  | cons e t ih =>
    intro acc k0 h
    rw [List.foldl_cons]
    apply ih
    rcases h with hacc | ⟨e2, he2, hk⟩
    · exact Or.inl (key_mem_dictInsert_mono _ _ _ _ hacc)
    · rcases List.mem_cons.mp he2 with rfl | hmem
      · exact Or.inl (hk ▸ key_mem_dictInsert acc e2.issue_name _)
      · exact Or.inr ⟨e2, hmem, hk⟩

/-- With pairwise-distinct keys, any member with the searched key
determines the lookup result. -/
theorem kbLookup_of_mem_unique (n : String) :
    ∀ kb : List (String × KBVal), kb.Pairwise (fun a b => a.1 ≠ b.1) →
      ∀ p ∈ kb, p.1 = n → kbLookup kb n = some p.2 := by
  intro kb
  induction kb with
  | nil => intro _ p hp; exact absurd hp (List.not_mem_nil p)
  | cons q t ih =>
    intro hpw p hp hpn
    rcases List.mem_cons.mp hp with rfl | hmem
    · unfold kbLookup
      rw [@List.find?_cons_of_pos (String × KBVal) (fun r => r.1 == n) p t
        (by simp [hpn])]
      rfl
    · have hqn : q.1 ≠ n := by
        rw [← hpn]
        exact (List.pairwise_cons.mp hpw).1 p hmem
      unfold kbLookup
      rw [@List.find?_cons_of_neg (String × KBVal) (fun r => r.1 == n) q t
        (by simp [hqn])]
      exact ih (List.pairwise_cons.mp hpw).2 p hmem hpn

/-- Mapping a function that fixes every member is the identity. -/
theorem map_id_of_mem {α : Type} (f : α → α) :
    ∀ l : List α, (∀ x ∈ l, f x = x) → l.map f = l := by
  intro l
  induction l with
  | nil => intro _; rfl
  | cons x t ih =>
    intro h
    rw [List.map_cons, h x (List.mem_cons_self x t),
      ih (fun y hy => h y (List.mem_cons_of_mem x hy))]

/-- After an upsert, every row carrying the upserted name carries the
upserted text. -/
theorem add_values (store : List KBEntry) (n i m : String) :
    ∀ e ∈ add_to_kb_db store n i m, e.issue_name = n →
      e.implication = i ∧ e.mitigation = m := by
  intro e he hn
  unfold add_to_kb_db at he
  by_cases hany : store.any (fun x => x.issue_name == n) = true
  · rw [if_pos hany] at he
    rcases List.mem_map.mp he with ⟨x, hx, hxe⟩
    by_cases hxn : (x.issue_name == n) = true
    · rw [if_pos hxn] at hxe
      rw [← hxe]
      exact ⟨rfl, rfl⟩
    · rw [if_neg hxn] at hxe
      exfalso
      apply hxn
      rw [hxe]
      simp [hn]
  · rw [if_neg hany] at he
    rcases List.mem_append.mp he with h1 | h1
    · exact absurd (List.any_eq_true.mpr ⟨e, h1, by simp [hn]⟩) hany
    · rw [List.mem_singleton.mp h1]
      exact ⟨rfl, rfl⟩

/-- After an upsert, some row carries the upserted name. -/
theorem add_mem (store : List KBEntry) (n i m : String) :
    ∃ e ∈ add_to_kb_db store n i m, e.issue_name = n := by
  unfold add_to_kb_db
  by_cases hany : store.any (fun x => x.issue_name == n) = true
  · rw [if_pos hany]
    rcases List.any_eq_true.mp hany with ⟨x, hx, hxn⟩
    exact ⟨{ x with implication := i, mitigation := m },
      List.mem_map.mpr ⟨x, hx, by rw [if_pos hxn]⟩, eq_of_beq hxn⟩
  · rw [if_neg hany]
    exact ⟨⟨n, i, m, 0⟩,
      List.mem_append.mpr (Or.inr (List.mem_singleton.mpr rfl)), rfl⟩

/-- Upserting the same arguments twice equals upserting them once. -/
theorem add_to_kb_idem (store : List KBEntry) (n i m : String) :
    add_to_kb_db (add_to_kb_db store n i m) n i m =
      add_to_kb_db store n i m := by
  have hany : (add_to_kb_db store n i m).any
      (fun x => x.issue_name == n) = true := by
    rcases add_mem store n i m with ⟨e, he, hn⟩
    exact List.any_eq_true.mpr ⟨e, he, by simp [hn]⟩
  conv_lhs => rw [add_to_kb_db]
  rw [if_pos hany]
  apply map_id_of_mem
  intro e he
  by_cases hn : (e.issue_name == n) = true
  · obtain ⟨h1, h2⟩ := add_values store n i m e he (eq_of_beq hn)
    rw [if_pos hn]
    obtain ⟨a, b, c, d⟩ := e
    dsimp only at h1 h2 ⊢
    rw [h1, h2]
  · rw [if_neg hn]

/-- Sorting rows that all carry usage count zero changes nothing. -/
theorem sortByUsageDesc_const_zero :
    ∀ l : List KBEntry, (∀ e ∈ l, e.usage_count = 0) → sortByUsageDesc l = l := by
  intro l
  induction l with
  | nil => intro _; rfl
  | cons e t ih =>
    intro h
    show insertByUsage e (sortByUsageDesc t) = e :: t
    rw [ih (fun x hx => h x (List.mem_cons_of_mem e hx))]
    cases t with
    | nil => rfl
    | cons f r =>
      show (if f.usage_count ≤ e.usage_count then e :: f :: r
        else f :: insertByUsage e r) = e :: f :: r
      rw [if_pos (by
        rw [h f (List.mem_cons_of_mem e (List.mem_cons_self f r))]
        exact Nat.zero_le _)]

/-- Building the dict from rows with pairwise-distinct names, starting
from an accumulator whose keys avoid those names, appends the row pairs
in order. -/
theorem foldl_dictStep_fresh :
    ∀ (rows : List KBEntry) (acc : List (String × KBVal)),
      (∀ p ∈ acc, ∀ e ∈ rows, p.1 ≠ e.issue_name) →
      rows.Pairwise (fun a b => a.issue_name ≠ b.issue_name) →
      rows.foldl (fun kb e =>
        dictInsert kb e.issue_name (e.implication, e.mitigation)) acc =
        acc ++ rows.map (fun e => (e.issue_name, (e.implication, e.mitigation))) := by
  intro rows
  induction rows with
  | nil => intro acc _ _; simp
  | cons e t ih =>
    intro acc hdisj hd
    rw [List.foldl_cons]
    have hany : acc.any (fun q => q.1 == e.issue_name) = false := by
      rw [List.any_eq_false]
      intro q hq hbeq
      exact hdisj q hq e (List.mem_cons_self e t) (eq_of_beq hbeq)
    have hstep : dictInsert acc e.issue_name (e.implication, e.mitigation) =
        acc ++ [(e.issue_name, (e.implication, e.mitigation))] := by
      unfold dictInsert
      rw [if_neg (by simp [hany])]
    rw [hstep, ih]
    · rw [List.append_assoc]
      rfl
    · intro p hp e2 he2
      rcases List.mem_append.mp hp with h1 | h1
      · exact hdisj p h1 e2 (List.mem_cons_of_mem e he2)
      · rw [List.mem_singleton.mp h1]
        exact (List.pairwise_cons.mp hd).1 e2 he2
    · exact (List.pairwise_cons.mp hd).2

/-- Upserting a list of fresh, pairwise-distinct names appends one row
per triple, each with usage count zero. -/
theorem foldl_add_fresh :
    ∀ (ts : List (String × String × String)) (acc : List KBEntry),
      (∀ e ∈ acc, ∀ t ∈ ts, e.issue_name ≠ t.1) →
      ts.Pairwise (fun a b => a.1 ≠ b.1) →
      ts.foldl (fun s t => add_to_kb_db s t.1 t.2.1 t.2.2) acc =
        acc ++ ts.map (fun t => (⟨t.1, t.2.1, t.2.2, 0⟩ : KBEntry)) := by
  intro ts
  induction ts with
  | nil => intro acc _ _; simp
  | cons t rest ih =>
    intro acc hdisj hd
    rw [List.foldl_cons]
    have hany : acc.any (fun e => e.issue_name == t.1) = false := by
      rw [List.any_eq_false]
      intro e he hbeq
      exact hdisj e he t (List.mem_cons_self t rest) (eq_of_beq hbeq)
    have hstep : add_to_kb_db acc t.1 t.2.1 t.2.2 =
        acc ++ [⟨t.1, t.2.1, t.2.2, 0⟩] := by
      unfold add_to_kb_db
      rw [if_neg (by simp [hany])]
    rw [hstep, ih]
    · rw [List.append_assoc]
      rfl
    · intro e he t2 ht2
      rcases List.mem_append.mp he with h1 | h1
      · exact hdisj e h1 t2 (List.mem_cons_of_mem t ht2)
      · rw [List.mem_singleton.mp h1]
        exact (List.pairwise_cons.mp hd).1 t2 ht2
    · exact (List.pairwise_cons.mp hd).2

/-- The exported entries are all good import entries, and importing
recovers exactly the name/implication/mitigation triples. -/
theorem filterMap_goodEntry_export :
    ∀ kb : List (String × KBVal), (∀ p ∈ kb, p.2.1 ≠ "" ∧ p.2.2 ≠ "") →
      (kb.map (fun p => (p.1, ImportVal.dict
        [("implication", p.2.1), ("mitigation", p.2.2)]))).filterMap goodEntry =
        kb.map (fun p => (p.1, p.2.1, p.2.2)) := by
  intro kb
  induction kb with
  | nil => intro _; rfl
  | cons p t ih =>
    intro h
    rw [List.map_cons, List.filterMap_cons]
    have hg : goodEntry (p.1, ImportVal.dict
        [("implication", p.2.1), ("mitigation", p.2.2)]) =
        some (p.1, p.2.1, p.2.2) := by
      simp only [goodEntry]
      have h1 : (List.lookup "implication"
          [("implication", p.2.1), ("mitigation", p.2.2)]).getD "" = p.2.1 := rfl
      have h2 : (List.lookup "mitigation"
          [("implication", p.2.1), ("mitigation", p.2.2)]).getD "" = p.2.2 := rfl
      rw [h1, h2, if_pos (h p (List.mem_cons_self p t))]
    rw [hg, List.map_cons, ih (fun q hq => h q (List.mem_cons_of_mem p hq))]

/-- Loading the store built from the triples of a distinct-keyed dict
gives back that dict. -/
theorem load_export_entries (kb : List (String × KBVal))
    (hkeys : kb.Pairwise (fun a b => a.1 ≠ b.1)) :
    load_kb_from_db ((kb.map (fun p => (p.1, p.2.1, p.2.2))).map
      (fun t => (⟨t.1, t.2.1, t.2.2, 0⟩ : KBEntry))) = kb := by
  rw [List.map_map]
  unfold load_kb_from_db
  rw [sortByUsageDesc_const_zero _ (by
    intro e he
    rcases List.mem_map.mp he with ⟨p, _, hpe⟩
    rw [← hpe]
    rfl)]
  unfold kbOfRows
  rw [foldl_dictStep_fresh _ [] (fun p hp => absurd hp (List.not_mem_nil p))
    (List.pairwise_map.mpr hkeys)]
  rw [List.nil_append, List.map_map]
  exact map_id_of_mem _ kb (fun p _ => rfl)

/-- C1: after an upsert the loaded mapping has exactly one entry keyed by
the upserted issue name, carrying the upserted implication and
mitigation, and repeating the upsert with identical arguments leaves the
mapping unchanged. -/
theorem upsert_then_get_all (store : List KBEntry) (n i m : String) :
    ((load_kb_from_db (add_to_kb_db store n i m)).map Prod.fst).count n = 1 ∧
    kbLookup (load_kb_from_db (add_to_kb_db store n i m)) n = some (i, m) ∧
    load_kb_from_db (add_to_kb_db (add_to_kb_db store n i m) n i m) =
      load_kb_from_db (add_to_kb_db store n i m) := by
  have hmem : ∃ e ∈ add_to_kb_db store n i m, e.issue_name = n :=
    add_mem store n i m
  have hsorted : ∃ e ∈ sortByUsageDesc (add_to_kb_db store n i m),
      e.issue_name = n := by
    obtain ⟨e, he, hn⟩ := hmem
    exact ⟨e, (perm_sortByUsageDesc _).mem_iff.mpr he, hn⟩
  have hkey : ∃ p ∈ load_kb_from_db (add_to_kb_db store n i m), p.1 = n :=
    key_mem_foldl _ [] n (Or.inr hsorted)
  have hkeys : (load_kb_from_db (add_to_kb_db store n i m)).Pairwise
      (fun a b => a.1 ≠ b.1) := load_kb_pairwise _
  obtain ⟨p, hp, hpn⟩ := hkey
  refine ⟨?_, ?_, ?_⟩
  · have hnodup : ((load_kb_from_db (add_to_kb_db store n i m)).map
        Prod.fst).Nodup := List.pairwise_map.mpr hkeys
    exact List.count_eq_one_of_mem hnodup (List.mem_map.mpr ⟨p, hp, hpn⟩)
  · rw [kbLookup_of_mem_unique n _ hkeys p hp hpn]
    rcases mem_foldl_dictStep _ _ _ hp with ⟨e, he, heq⟩ | habs
    · have hes : e ∈ add_to_kb_db store n i m :=
        (perm_sortByUsageDesc _).subset he
      have hen : e.issue_name = n := by
        rw [heq] at hpn
        exact hpn
      obtain ⟨h1, h2⟩ := add_values store n i m e hes hen
      rw [heq, h1, h2]
    · exact absurd habs (List.not_mem_nil p)
  · rw [add_to_kb_idem]

/-- C6: exporting the knowledge base and importing the result into an
empty store reproduces the original issue-name to implication/mitigation
mapping exactly, whatever the usage counts were. -/
theorem export_import_roundtrip (store : List KBEntry)
    (hne : ∀ e ∈ store, e.implication ≠ "" ∧ e.mitigation ≠ "") (n : String) :
    kbLookup (load_kb_from_db
      (import_kb_from_json []
        (ParsedJson.object (export_kb_to_json store))).1) n
    = kbLookup (load_kb_from_db store) n := by
  have hkeys : (load_kb_from_db store).Pairwise (fun a b => a.1 ≠ b.1) :=
    load_kb_pairwise store
  have hvals : ∀ p ∈ load_kb_from_db store, p.2.1 ≠ "" ∧ p.2.2 ≠ "" := by
    intro p hp
    rcases mem_foldl_dictStep _ _ _ hp with ⟨e, he, heq⟩ | habs
    · have hes : e ∈ store := (perm_sortByUsageDesc store).subset he
      rcases hne e hes with ⟨h1, h2⟩
      rw [heq]
      exact ⟨h1, h2⟩
    · exact absurd habs (List.not_mem_nil p)
  have h1 : (import_kb_from_json []
      (ParsedJson.object (export_kb_to_json store))).1 =
      ((export_kb_to_json store).filterMap goodEntry).foldl
        (fun s t => add_to_kb_db s t.1 t.2.1 t.2.2) [] := by
    rw [import_object_upserts_good_entries]
  rw [h1]
  have h2 : (export_kb_to_json store).filterMap goodEntry =
      (load_kb_from_db store).map (fun p => (p.1, p.2.1, p.2.2)) := by
    unfold export_kb_to_json
    exact filterMap_goodEntry_export _ hvals
  rw [h2]
  rw [foldl_add_fresh _ [] (fun e he => absurd he (List.not_mem_nil e))
    (List.pairwise_map.mpr hkeys)]
  rw [List.nil_append, load_export_entries _ hkeys]

/-- Witness for C6: a concrete one-entry store with a non-zero usage
count on which the round-trip equality evaluates. -/
theorem export_import_roundtrip_witness :
    (∀ e ∈ [(⟨"a", "i", "m", 5⟩ : KBEntry)],
      e.implication ≠ "" ∧ e.mitigation ≠ "") ∧
    kbLookup (load_kb_from_db
      (import_kb_from_json []
        (ParsedJson.object (export_kb_to_json [⟨"a", "i", "m", 5⟩]))).1) "a"
    = kbLookup (load_kb_from_db [⟨"a", "i", "m", 5⟩]) "a" :=
  ⟨by decide, export_import_roundtrip [⟨"a", "i", "m", 5⟩] (by decide) "a"⟩

/-- The match-key and usage-increment component of one rendered finding:
a KB lookup is attempted exactly when a text field is missing, and the
chosen key is the claimed one. -/
theorem renderFinding_snd (kb : List (String × KBVal)) (f : Finding) :
    (renderFinding kb f).2 =
      if f.implication = "" ∨ f.mitigation = "" then kbMatchKey kb f.issue
      else none := by
  by_cases hc : f.implication = "" ∨ f.mitigation = ""
  · cases hk : kbMatchKey kb f.issue with
    | some k => simp [renderFinding, hc, hk]
    | none => simp [renderFinding, hc, hk]
  · simp [renderFinding, hc]

/-- The rendered detail block equals the claimed resolution: explicit
text first, then the matched KB text when non-empty, then the
placeholder. -/
theorem renderFinding_fst (kb : List (String × KBVal)) (f : Finding) :
    (renderFinding kb f).1 = specPage kb f := by
  have hni : noImplication ≠ "" := by decide
  have hnm : noMitigation ≠ "" := by decide
  by_cases hi : f.implication = ""
  · by_cases hm : f.mitigation = ""
    · cases hk : kbMatchKey kb f.issue with
      | none => simp [renderFinding, specPage, specResolveField, hi, hm, hk]
      | some k =>
        cases hv : kbLookup kb k with
        | none =>
          simp [renderFinding, specPage, specResolveField, hi, hm, hk, hv,
            hni, hnm]
        | some v =>
          simp [renderFinding, specPage, specResolveField, hi, hm, hk, hv,
            hni, hnm]
    · cases hk : kbMatchKey kb f.issue with
      | none => simp [renderFinding, specPage, specResolveField, hi, hm, hk]
      | some k =>
        cases hv : kbLookup kb k with
        | none =>
          simp [renderFinding, specPage, specResolveField, hi, hm, hk, hv,
            hni, hnm]
        | some v =>
          simp [renderFinding, specPage, specResolveField, hi, hm, hk, hv,
            hni, hnm]
  · by_cases hm : f.mitigation = ""
    · cases hk : kbMatchKey kb f.issue with
      | none => simp [renderFinding, specPage, specResolveField, hi, hm, hk]
      | some k =>
        cases hv : kbLookup kb k with
        | none =>
          simp [renderFinding, specPage, specResolveField, hi, hm, hk, hv,
            hni, hnm]
        | some v =>
          simp [renderFinding, specPage, specResolveField, hi, hm, hk, hv,
            hni, hnm]
    · simp [renderFinding, specPage, specResolveField, hi, hm]

/-- The pages accumulated by one loop step. -/
theorem renderStep_pages (kb : List (String × KBVal)) (acc : RenderResult)
    (f : Finding) :
    (renderStep kb acc f).pages = acc.pages ++ [(renderFinding kb f).1] := by
  cases hr : (renderFinding kb f).2 <;> simp [renderStep, hr]

/-- The increment calls accumulated by one loop step. -/
theorem renderStep_incCalls (kb : List (String × KBVal)) (acc : RenderResult)
    (f : Finding) :
    (renderStep kb acc f).incCalls =
      acc.incCalls ++ (renderFinding kb f).2.toList := by
  cases hr : (renderFinding kb f).2 <;> simp [renderStep, hr]

/-- Unrolling the finding loop: the pages are the claimed resolutions in
order and the increment calls are exactly one per matched finding. -/
theorem render_loop (kb : List (String × KBVal)) :
    ∀ (findings : List Finding) (acc : RenderResult),
      ((findings.foldl (renderStep kb) acc).pages =
        acc.pages ++ findings.map (fun f => specPage kb f)) ∧
      ((findings.foldl (renderStep kb) acc).incCalls =
        acc.incCalls ++ findings.filterMap (fun f =>
          if f.implication = "" ∨ f.mitigation = ""
          then kbMatchKey kb f.issue else none)) := by
  intro findings
  induction findings with
  | nil => intro acc; simp
  | cons f t ih =>
    intro acc
    rw [List.foldl_cons]
    obtain ⟨ihp, ihc⟩ := ih (renderStep kb acc f)
    constructor
    · rw [ihp, renderStep_pages, renderFinding_fst]
      simp [List.append_assoc]
    · rw [ihc, renderStep_incCalls, renderFinding_snd]
      cases hc : (if f.implication = "" ∨ f.mitigation = ""
          then kbMatchKey kb f.issue else none) with
      | some k => simp [List.filterMap_cons, hc, List.append_assoc]
      | none => simp [List.filterMap_cons, hc]

/-- C2: the finding-detail pipeline resolves implication and mitigation
text in the claimed order — explicit value, exact KB match, first
case-insensitive substring KB match in KB iteration order, placeholder —
and issues exactly one usage-increment call per finding whose KB match
succeeded, for that issue name. -/
theorem finding_pages_resolution (store : List KBEntry)
    (session : List String) (findings : List Finding) :
    (generate_finding_pages store session findings).pages =
      findings.map (fun f => specPage (load_kb_from_db store) f) ∧
    (generate_finding_pages store session findings).incCalls =
      findings.filterMap (fun f =>
        if f.implication = "" ∨ f.mitigation = ""
        then kbMatchKey (load_kb_from_db store) f.issue else none) := by
  obtain ⟨hp, hc⟩ :=
    render_loop (load_kb_from_db store) findings ⟨[], [], store, session⟩
  exact ⟨by simpa using hp, by simpa using hc⟩

example :
    renderFinding [("SQL Injection", ("I1", "M1"))]
      ⟨"1", "SQL Injection", "", "Medium", "Open", "High - Open", "", "", "",
        []⟩ =
    (⟨"Finding 1: SQL Injection", "[No hosts specified]", "I1",
      "High - Open", "M1"⟩, some "SQL Injection") := by decide

example :
    renderFinding [("sql", ("I1", "M1"))]
      ⟨"2", "Blind SQL Injection", "", "Medium", "Open", "High - Open", "",
        "custom impl", "", ["10.0.0.1", "10.0.0.2"]⟩ =
    (⟨"Finding 2: Blind SQL Injection", "10.0.0.1, 10.0.0.2", "custom impl",
      "High - Open", "M1"⟩, some "sql") := by decide

example :
    renderFinding [("sql", ("I1", "M1"))]
      ⟨"3", "Open Redirect", "", "Medium", "Open", "Low - Open", "",
        "ci", "cm", []⟩ =
    (⟨"Finding 3: Open Redirect", "[No hosts specified]", "ci",
      "Low - Open", "cm"⟩, none) := by decide

example :
    add_findings_master_table
      [⟨"1", "a", "Server Vulnerabilities", "High", "Open", "", "r1", "", "",
        []⟩,
       ⟨"2", "b", "Web Vulnerabilities", "Low", "Closed", "", "r2", "", "",
        []⟩,
       ⟨"3", "c", "Web Vulnerabilities", "Medium", "Open", "", "r3", "", "",
        []⟩] =
    [MasterRow.header,
     MasterRow.groupHeader "Server Vulnerabilities",
     MasterRow.findingRow "1" "a" "High" "Open" "r1",
     MasterRow.groupHeader "Web Vulnerabilities",
     MasterRow.findingRow "2" "b" "Low" "Closed" "r2",
     MasterRow.findingRow "3" "c" "Medium" "Open" "r3"] := by decide

example :
    import_kb_from_json []
      (ParsedJson.object
        [("a", ImportVal.dict [("implication", "i"), ("mitigation", "m")]),
         ("bad", ImportVal.other),
         ("b", ImportVal.dict [("implication", ""), ("mitigation", "m")])]) =
    ([⟨"a", "i", "m", 0⟩], 1) := by decide
